import Mathlib

/-!
Verification of the timeline grid engine in the team-planning spreadsheet
scripts (src/Code.js and src/unnamed/part_000): the day-indexed column axis,
the greedy interval packer, the color assigner, the term-header segmentation,
and the bar-to-column resolution.

Date model.  Every date handled by the engine is normalized to local midnight
(setHours(0,0,0,0)), so a JavaScript Date is identified with its day number
(days since 1970-01-01).  The ECMAScript constructor new Date(y, m, d)
computes MakeDay(y, m, d): the day number of the first day of month m
(0-indexed) of year y, plus (d - 1), with no range check on d — this is
daysFromCivil below.  Consequences used throughout: comparing two such dates
(JavaScript compares time values) is comparing day numbers; the idiom
d.setDate(d.getDate() + k) advances the day number by k; the YYYY-MM-DD slice
of toISOString identifies the day, and sorting those strings sorts days
chronologically; getDay is (dayNumber + 4) mod 7 (floor mod), 0 = Sunday.
-/

/-- ECMAScript DaysInYear test for a leap year. -/
def isLeapYear (y : Int) : Bool :=
  (y % 4 == 0 && y % 100 != 0) || y % 400 == 0

/-- ECMAScript DayFromYear: day number of January 1 of year y. -/
def dayFromYear (y : Int) : Int :=
  365 * (y - 1970) + (y - 1969).fdiv 4 - (y - 1901).fdiv 100 + (y - 1601).fdiv 400

/-- Cumulative day counts before each 0-indexed month. -/
def monthOffsets (leap : Bool) : List Int :=
  if leap then [0, 31, 60, 91, 121, 152, 182, 213, 244, 274, 305, 335]
  else [0, 31, 59, 90, 120, 151, 181, 212, 243, 273, 304, 334]

/-- Day number of new Date(y, m, d): first day of month m of year y plus
(d - 1), with months 0-indexed as in the source.  d may be out of range
(ECMAScript MakeDay applies no range check), which is how the source's
day-of-month arithmetic in getStartOfWeek rolls across month boundaries. -/
def daysFromCivil (y m d : Int) : Int :=
  dayFromYear y + (monthOffsets (isLeapYear y)).getD m.toNat 0 + (d - 1)

/-- The date value built by new Date(y, m, d) in the source. -/
def mkDate (y m d : Int) : Int := daysFromCivil y m d

/-- JavaScript Date.prototype.getDay: 0 Sunday, 1 Monday, ..., 6 Saturday. -/
def getDay (n : Int) : Int := (n + 4) % 7

/-- getStartOfWeek from the source: reads the civil fields (getFullYear,
getMonth, getDate, getDay) of its argument and rebuilds a date whose day of
month is shifted back to the Monday of the week (Sunday shifts back 6). -/
def getStartOfWeek (y m d : Int) : Int :=
  let day := getDay (mkDate y m d)
  let diff := d - day + (if day = 0 then -6 else 1)
  mkDate y m diff

/-- getEndOfWeek in src/Code.js: the start-of-week Monday advanced 4 days via
setDate(getDate() + 4), i.e. the Friday of the week (work-week mode). -/
def Code.getEndOfWeek (y m d : Int) : Int := getStartOfWeek y m d + 4

/-- getEndOfWeek in src/unnamed/part_000: the Monday advanced 6 days, i.e.
the Sunday of the week (full-week mode). -/
def PartZero.getEndOfWeek (y m d : Int) : Int := getStartOfWeek y m d + 6

/-- Fuelled form of the day loop below; the fuel is an upper bound on the
number of iterations so the loop is structurally recursive. -/
def dayWalkAux : Nat → Int → Int → List Int
  | 0, _, _ => []
  | fuel + 1, c, last => if c ≤ last then c :: dayWalkAux fuel (c + 1) last else []

/-- The day loop of generateTimelineHeaders: starting from firstChartDate,
visit every day while currentDate <= lastChartDate, advancing with
setDate(getDate() + 1). -/
def dayWalk (first last : Int) : List Int := dayWalkAux (last + 1 - first).toNat first last

/-- The workday test dayOfWeek >= 1 && dayOfWeek <= 5 of generateTimelineHeaders
in src/Code.js. -/
def isWorkday (n : Int) : Bool := 1 ≤ getDay n && getDay n ≤ 5

/-- The days that receive columns in src/Code.js generateTimelineHeaders:
the walk from getStartOfWeek(min) to getEndOfWeek(max), keeping workdays only. -/
def Code.generateTimelineDays (y1 m1 d1 y2 m2 d2 : Int) : List Int :=
  (dayWalk (getStartOfWeek y1 m1 d1) (Code.getEndOfWeek y2 m2 d2)).filter isWorkday

/-- The days that receive columns in src/unnamed/part_000
generateTimelineHeaders: every day of the walk, weekends included. -/
def PartZero.generateTimelineDays (y1 m1 d1 y2 m2 d2 : Int) : List Int :=
  dayWalk (getStartOfWeek y1 m1 d1) (PartZero.getEndOfWeek y2 m2 d2)

/-- dailyDateToSheetColMap: days paired with consecutive sheet columns
starting at c0 (currentSheetColIndex starts at firstFixedColumnIndex + 1 and
is incremented per mapped day). -/
def indexEntries (c0 : Int) : List Int → List (Int × Int)
  | [] => []
  | d :: ds => (d, c0) :: indexEntries (c0 + 1) ds

/-- dailyDateToSheetColMap.get(date): the column of a day, if the day was
indexed. -/
def lookupDay (m : List (Int × Int)) (d : Int) : Option Int :=
  (m.find? (fun p => p.1 == d)).map Prod.snd

/-- Civil (year, month 1..12, day of month) of a day number, by Hinnant's
civil-from-days algorithm; backs the getDate accessor. -/
def civilFromDays (n : Int) : Int × Int × Int :=
  let z := n + 719468
  let era := z.fdiv 146097
  let doe := z - era * 146097
  let yoe := (doe - doe.fdiv 1460 + doe.fdiv 36524 - doe.fdiv 146096).fdiv 365
  let y := yoe + era * 400
  let doy := doe - (365 * yoe + yoe.fdiv 4 - yoe.fdiv 100)
  let mp := (5 * doy + 2).fdiv 153
  let d := doy - (153 * mp + 2).fdiv 5 + 1
  let m := if mp < 10 then mp + 3 else mp - 9
  (if m ≤ 2 then y + 1 else y, m, d)

/-- JavaScript Date.prototype.getDate: the day of month of a date value. -/
def getDateOfDays (n : Int) : Int := (civilFromDays n).2.2

/-- JavaScript d.setDate(k): keep d's year and month, set the day of month
to k; MakeDay(year(d), month(d), k) = firstOfMonth(d) + k - 1
= d - getDate(d) + k. -/
def setDate (n k : Int) : Int := n - getDateOfDays n + k

/-- The end-before-start normalization of updatePeopleTimeline
(src/Code.js lines 484-487) and getMilestoneData (src/unnamed/part_000
lines 719-722): if (endDate < startDate) endDate.setDate(startDate.getDate()). -/
def normalizeEndDate (startDate endDate : Int) : Int :=
  if endDate < startDate then setDate endDate (getDateOfDays startDate) else endDate

/-- The end-before-start normalization of updateProjectTimelines
(src/Code.js lines 896-899): project.endDate = new Date(project.startDate). -/
def normalizeEndDateProjects (startDate endDate : Int) : Int :=
  if endDate < startDate then startDate else endDate

/-- One bar of a group: the startDate/endDate pair the packing loops operate
on (the spec calls this an Interval; named Ivl here because Mathlib already
has an Interval). -/
structure Ivl where
  startDate : Int
  endDate : Int
deriving DecidableEq

/-- The blocking test of the packing loops: projectData.startDate <=
existingProject.endDate && projectData.endDate >= existingProject.startDate. -/
def overlaps (a b : Ivl) : Bool :=
  a.startDate ≤ b.endDate && a.endDate ≥ b.startDate

/-- canPlaceInRow: true when no member of the row overlaps the candidate. -/
def canPlaceInRow (p : Ivl) (row : List Ivl) : Bool :=
  row.all (fun q => !(overlaps p q))

/-- One placement step of the packing loops: scan the packed rows in order,
append the candidate to the first row it fits (currentRowCustomers.push), or
append a fresh singleton row at the end (packedCustomerRows.push([customer])). -/
def placeInterval (p : Ivl) : List (List Ivl) → List (List Ivl)
  | [] => [[p]]
  | row :: rest =>
      if canPlaceInRow p row then (row ++ [p]) :: rest else row :: placeInterval p rest

/-- Comparison key of customerData.sort((a, b) => a.startDate - b.startDate). -/
def startLE (a b : Ivl) : Prop := a.startDate ≤ b.startDate

instance : DecidableRel startLE :=
  fun a b => inferInstanceAs (Decidable (a.startDate ≤ b.startDate))

instance : IsTotal Ivl startLE :=
  ⟨fun a b => Int.le_total a.startDate b.startDate⟩

instance : IsTrans Ivl startLE :=
  ⟨fun _ _ _ h1 h2 => le_trans h1 h2⟩

/-- The in-place customerData.sort((a, b) => a.startDate.getTime() -
b.startDate.getTime()): a stable sort by start date (the V8 runtime's
Array.prototype.sort is stable), modelled by stable insertion sort. -/
def sortByStart (l : List Ivl) : List Ivl := List.insertionSort startLE l

/-- The packing loop body applied to every interval in order. -/
def packLoop (todo : List Ivl) (rows : List (List Ivl)) : List (List Ivl) :=
  todo.foldl (fun rs p => placeInterval p rs) rows

/-- pack: sort the group's intervals by start date, then first-fit place each
one; the packed rows of populateCustomerRows / updatePeopleTimeline. -/
def pack (l : List Ivl) : List (List Ivl) := packLoop (sortByStart l) []

/-- The caller-visible content of the customerData array after
populateCustomerRows ran: the in-place .sort() leaves the list stably sorted
by start date. -/
def customerDataAfterPack (l : List Ivl) : List Ivl := sortByStart l

/-- An interval is active on day d (closed range). -/
def activeAt (i : Ivl) (d : Int) : Bool := i.startDate ≤ d && d ≤ i.endDate

/-- Number of intervals of the list active on day d. -/
def countActive (l : List Ivl) (d : Int) : Nat :=
  (l.filter (fun i => activeAt i d)).length

/-- Non-overlap of two closed intervals, as the spec states it:
A.end < B.start or B.end < A.start. -/
def nonOv (a b : Ivl) : Prop := a.endDate < b.startDate ∨ b.endDate < a.startDate

/-- availableColors: the fixed 19-color palette of the source. -/
def availableColors : List String :=
  ["#ADD8E6", "#90EE90", "#FFDAB9", "#B0E0E6", "#DDA0DD", "#F0E68C",
   "#87CEEB", "#F5DEB3", "#C0C0C0", "#FFA07A", "#20B2AA", "#E6E6FA",
   "#FFB6C1", "#AFEEEE", "#F08080", "#DA70D6", "#FFEFD5", "#FFE4B5", "#7FFFD4"]

/-- The state captured by getProjectColor's closure: the projectColors map
(association list; the position of the entries does not matter because keys
are unique) and the colorIndex counter. -/
structure ColorState where
  projectColors : List (String × String)
  colorIndex : Nat
deriving DecidableEq

/-- State at the start of a grid-building run: empty map, colorIndex = 0. -/
def initialColorState : ColorState := ⟨[], 0⟩

/-- getProjectColor: if the identifier is unknown, assign
availableColors[colorIndex % availableColors.length] and bump colorIndex;
return the (now) stored color. -/
def getProjectColor (st : ColorState) (projectIdentifier : String) : String × ColorState :=
  match st.projectColors.lookup projectIdentifier with
  | some c => (c, st)
  | none =>
      let c := availableColors.getD (st.colorIndex % availableColors.length) ""
      (c, ⟨(projectIdentifier, c) :: st.projectColors, st.colorIndex + 1⟩)

/-- The color-assigner state after a sequence of getProjectColor requests. -/
def runRequests (reqs : List String) (st : ColorState) : ColorState :=
  reqs.foldl (fun s r => (getProjectColor s r).2) st

/-- A term of the catalog: name, day range, color.  In src/unnamed/part_000
the catalog is either the hardcoded TERMS_DATA (ISO date strings, parsed to
day numbers) or the rows of the Terms sheet. -/
structure Term where
  name : String
  startDay : Int
  endDay : Int
  color : String
deriving DecidableEq

/-- TERMS_DATA from src/unnamed/part_000, its ISO date strings converted to
day numbers (T1 2025: 2025-02-03..2025-05-04, T2 2025: 2025-05-05..2025-08-17,
T3 2025: 2025-08-18..2025-11-02, T4 2024: 2024-11-03..2026-02-01). -/
def TERMS_DATA : List Term :=
  [⟨"T1 2025", mkDate 2025 1 3, mkDate 2025 4 4, "#FF6B6B"⟩,
   ⟨"T2 2025", mkDate 2025 4 5, mkDate 2025 7 17, "#4ECDC4"⟩,
   ⟨"T3 2025", mkDate 2025 7 18, mkDate 2025 10 2, "#45B7D1"⟩,
   ⟨"T4 2024", mkDate 2024 10 3, mkDate 2026 1 1, "#96CEB4"⟩]

/-- getTermForDate over a term catalog: first term (in catalog order) whose
closed range contains the day; name and color, or none. -/
def getTermForDate (terms : List Term) (d : Int) : Option (String × String) :=
  terms.findSome? (fun t =>
    if t.startDay ≤ d && d ≤ t.endDay then some (t.name, t.color) else none)

/-- One termMergeRanges entry: startCol, endCol, text, color. -/
structure TermMergeRange where
  startCol : Int
  endCol : Int
  text : String
  color : String
deriving DecidableEq

/-- The loop state of the term-segmentation pass of generateTimelineHeaders.
prevCol models the sortedDailyDateKeys[i - 1] column access (only read under
the lastTermKey guard, so its initial value is never used). -/
structure SegState where
  ranges : List TermMergeRange
  lastTermKey : Option String
  currentTermMergeStartCol : Int
  currentTermColor : Option String
  prevCol : Int
deriving DecidableEq

/-- One iteration of the term-segmentation loop, for the map entry e =
(day, column): on a key change, finalize the previous merge range (only when
lastTermKey was not null) and open a new one at the current column. -/
def segStep (tk : Int → Option (String × String)) (st : SegState) (e : Int × Int) : SegState :=
  let t := tk e.1
  let currentTermKey := t.map Prod.fst
  let currentTermActualColor := t.map Prod.snd
  if currentTermKey ≠ st.lastTermKey then
    let ranges :=
      if st.lastTermKey ≠ none ∧ st.currentTermMergeStartCol ≠ -1 then
        st.ranges ++ [⟨st.currentTermMergeStartCol, st.prevCol,
                       st.lastTermKey.getD (""), st.currentTermColor.getD ("")⟩]
      else st.ranges
    ⟨ranges, currentTermKey, e.2, currentTermActualColor, e.2⟩
  else
    { st with prevCol := e.2 }

/-- termMergeRanges: run the segmentation loop over the (day, column) entries
in column order, then push the very last merge range (again only when
lastTermKey is not null). -/
def computeTermMergeRanges (tk : Int → Option (String × String))
    (entries : List (Int × Int)) : List TermMergeRange :=
  let st := entries.foldl (segStep tk) ⟨[], none, -1, none, 0⟩
  if st.lastTermKey ≠ none ∧ st.currentTermMergeStartCol ≠ -1 then
    st.ranges ++ [⟨st.currentTermMergeStartCol, st.prevCol,
                   st.lastTermKey.getD (""), st.currentTermColor.getD ("")⟩]
  else st.ranges

/-- The closed integer range startCol..endCol as a list. -/
def intRangeIncl (a b : Int) : List Int :=
  (List.range (b + 1 - a).toNat).map (fun (i : Nat) => a + (i : Int))

/-- All columns covered by a list of merge ranges, in order. -/
def coveredCols (segs : List TermMergeRange) : List Int :=
  segs.flatMap (fun s => intRangeIncl s.startCol s.endCol)

/-- Keys currently holding an assigned color. -/
def keysOf (st : ColorState) : List String := st.projectColors.map Prod.fst

/-- The data columns of the index whose day resolves to some term: the claim
amended restricts the tiling to these. -/
def termCols (tk : Int → Option (String × String)) (entries : List (Int × Int)) : List Int :=
  (entries.filter (fun e => (tk e.1).isSome)).map Prod.snd

/-- The columns of the currently open merge range: the run that the final
push of computeTermMergeRanges would emit from this state. -/
def pendingCols (st : SegState) : List Int :=
  if st.lastTermKey ≠ none ∧ st.currentTermMergeStartCol ≠ -1 then
    intRangeIncl st.currentTermMergeStartCol st.prevCol
  else []

/-- Invariant of the segmentation state while scanning columns c0, c0+1, ...:
either no run is open (lastTermKey null), or the open run spans the columns
from currentTermMergeStartCol through the previous column c0 - 1. -/
def goodSeg (st : SegState) (c0 : Int) : Prop :=
  st.lastTermKey = none ∨
    (st.lastTermKey ≠ none ∧ 0 ≤ st.currentTermMergeStartCol ∧
      st.currentTermMergeStartCol ≤ st.prevCol ∧ st.prevCol = c0 - 1)

/-- The bar placement of updatePeopleTimeline (src/Code.js lines 599-611 and
src/unnamed/part_000 lines 1357-1369): look the start and end days up in the
column map; a missing (or below-2) start column becomes 2, a missing (or
below-2) end column becomes totalHeaderColumns, and an inverted pair is fixed
by pulling the end up to the start. -/
def resolveBarCols (m : List (Int × Int)) (totalHeaderColumns : Int)
    (s e : Int) : Int × Int :=
  let sc := match lookupDay m s with
    | none => 2
    | some c => if c < 2 then 2 else c
  let ec := match lookupDay m e with
    | none => totalHeaderColumns
    | some c => if c < 2 then totalHeaderColumns else c
  if sc > ec then (sc, sc) else (sc, ec)

/-- The column the claim says a missing start should clamp to: the column of
the first indexed day at or after the given day (entries are in day order). -/
def nearestColAtOrAfter (m : List (Int × Int)) (d : Int) : Option Int :=
  ((m.filter (fun p => d ≤ p.1)).map Prod.snd).head?

/-! ### Basic facts about the packing loop -/

instance : DecidableRel nonOv :=
  fun a b => inferInstanceAs (Decidable (_ ∨ _))

theorem overlaps_eq_false_iff (a b : Ivl) : overlaps a b = false ↔ nonOv a b := by
  simp only [overlaps, nonOv, Bool.and_eq_false_iff, decide_eq_false_iff_not, not_le, ge_iff_le]
  omega

theorem nonOv_symm {a b : Ivl} (h : nonOv a b) : nonOv b a := h.symm

theorem canPlaceInRow_iff (p : Ivl) (row : List Ivl) :
    canPlaceInRow p row = true ↔ ∀ q ∈ row, nonOv p q := by
  simp [canPlaceInRow, List.all_eq_true, overlaps_eq_false_iff]

theorem pairwise_rows_placeInterval (p : Ivl) :
    ∀ rows : List (List Ivl), (∀ row ∈ rows, row.Pairwise nonOv) →
      ∀ row ∈ placeInterval p rows, row.Pairwise nonOv := by
  intro rows
  induction rows with
  | nil =>
      intro _ row hrow
      simp only [placeInterval, List.mem_singleton] at hrow
      subst hrow; simp
  | cons r rest ih =>
      intro h row hrow
      by_cases hc : canPlaceInRow p r
      · simp only [placeInterval, if_pos hc, List.mem_cons] at hrow
        rcases hrow with hrow | hrow
        · subst hrow
          rw [List.pairwise_append]
          refine ⟨h r (by simp), by simp, ?_⟩
          intro a ha b hb
          rw [List.mem_singleton] at hb
          rw [hb]
          exact nonOv_symm ((canPlaceInRow_iff p r).mp hc a ha)
        · exact h row (List.mem_cons_of_mem _ hrow)
      · simp only [placeInterval, if_neg hc, List.mem_cons] at hrow
        rcases hrow with hrow | hrow
        · subst hrow; exact h row (by simp)
        · exact ih (fun row hr => h row (List.mem_cons_of_mem _ hr)) row hrow

theorem flatten_placeInterval (p : Ivl) :
    ∀ rows : List (List Ivl), (placeInterval p rows).flatten.Perm (p :: rows.flatten) := by
  intro rows
  induction rows with
  | nil => simp [placeInterval]
  | cons r rest ih =>
      by_cases hc : canPlaceInRow p r
      · simp only [placeInterval, if_pos hc, List.flatten_cons, List.append_assoc,
          List.singleton_append]
        exact List.perm_middle
      · simp only [placeInterval, if_neg hc, List.flatten_cons]
        exact (ih.append_left r).trans List.perm_middle

theorem ne_nil_placeInterval (p : Ivl) :
    ∀ rows : List (List Ivl), (∀ row ∈ rows, row ≠ []) →
      ∀ row ∈ placeInterval p rows, row ≠ [] := by
  intro rows
  induction rows with
  | nil =>
      intro _ row hrow
      simp only [placeInterval, List.mem_singleton] at hrow
      subst hrow; simp
  | cons r rest ih =>
      intro h row hrow
      by_cases hc : canPlaceInRow p r
      · simp only [placeInterval, if_pos hc, List.mem_cons] at hrow
        rcases hrow with hrow | hrow
        · subst hrow; simp
        · exact h row (List.mem_cons_of_mem _ hrow)
      · simp only [placeInterval, if_neg hc, List.mem_cons] at hrow
        rcases hrow with hrow | hrow
        · subst hrow; exact h row (by simp)
        · exact ih (fun row hr => h row (List.mem_cons_of_mem _ hr)) row hrow

theorem packLoop_nil (rows : List (List Ivl)) : packLoop [] rows = rows := rfl

theorem packLoop_cons (p : Ivl) (todo : List Ivl) (rows : List (List Ivl)) :
    packLoop (p :: todo) rows = packLoop todo (placeInterval p rows) := rfl

theorem pairwise_rows_packLoop :
    ∀ (todo : List Ivl) (rows : List (List Ivl)),
      (∀ row ∈ rows, row.Pairwise nonOv) →
      ∀ row ∈ packLoop todo rows, row.Pairwise nonOv := by
  intro todo
  induction todo with
  | nil => intro rows h; simpa [packLoop_nil] using h
  | cons p rest ih =>
      intro rows h
      rw [packLoop_cons]
      exact ih _ (pairwise_rows_placeInterval p rows h)

theorem flatten_packLoop :
    ∀ (todo : List Ivl) (rows : List (List Ivl)),
      (packLoop todo rows).flatten.Perm (todo ++ rows.flatten) := by
  intro todo
  induction todo with
  | nil => intro rows; simp [packLoop_nil]
  | cons p rest ih =>
      intro rows
      rw [packLoop_cons]
      exact ((ih _).trans (((flatten_placeInterval p rows).append_left rest).trans
        List.perm_middle))

theorem ne_nil_packLoop :
    ∀ (todo : List Ivl) (rows : List (List Ivl)),
      (∀ row ∈ rows, row ≠ []) → ∀ row ∈ packLoop todo rows, row ≠ [] := by
  intro todo
  induction todo with
  | nil => intro rows h; simpa [packLoop_nil] using h
  | cons p rest ih =>
      intro rows h
      rw [packLoop_cons]
      exact ih _ (ne_nil_placeInterval p rows h)

theorem sortByStart_perm (l : List Ivl) : (sortByStart l).Perm l :=
  List.perm_insertionSort startLE l

theorem flatten_pack (l : List Ivl) : (pack l).flatten.Perm l := by
  have h := flatten_packLoop (sortByStart l) []
  simpa [pack] using h.trans (by simpa using sortByStart_perm l)

theorem pairwise_rows_pack (l : List Ivl) :
    ∀ row ∈ pack l, row.Pairwise nonOv :=
  pairwise_rows_packLoop (sortByStart l) [] (by simp)

/-- C2: every row produced by pack consists of pairwise non-overlapping
intervals, where non-overlap of A and B is A.end < B.start or B.end < A.start
(so closed ranges coinciding on a single day never share a row). -/
theorem c2_no_overlap_invariant (l : List Ivl) (row : List Ivl)
    (hrow : row ∈ pack l) : row.Pairwise nonOv :=
  pairwise_rows_pack l row hrow

theorem c2_no_overlap_invariant_witness :
    (([⟨1, 5⟩, ⟨6, 10⟩] : List Ivl) ∈ pack [⟨1, 5⟩, ⟨3, 7⟩, ⟨6, 10⟩]) ∧
      List.Pairwise nonOv ([⟨1, 5⟩, ⟨6, 10⟩] : List Ivl) :=
  ⟨by decide, c2_no_overlap_invariant [⟨1, 5⟩, ⟨3, 7⟩, ⟨6, 10⟩] _ (by decide)⟩

/-- C10: pack partitions its input: the concatenation of the output rows is a
permutation of the input (every interval lands in exactly one row, none
dropped or duplicated), every output row is non-empty, and the total number
of packed intervals equals the input length. -/
theorem c10_pack_partitions_input (l : List Ivl) :
    (pack l).flatten.Perm l ∧ (∀ row ∈ pack l, row ≠ []) ∧
      ((pack l).map List.length).sum = l.length := by
  refine ⟨flatten_pack l, ne_nil_packLoop (sortByStart l) [] (by simp), ?_⟩
  have h := (flatten_pack l).length_eq
  simpa [List.length_flatten] using h

theorem c10_pack_partitions_input_witness :
    ((pack [⟨1, 5⟩, ⟨3, 7⟩, ⟨6, 10⟩]).flatten.Perm [⟨1, 5⟩, ⟨3, 7⟩, ⟨6, 10⟩]) ∧
      (([⟨3, 7⟩] : List Ivl) ≠ []) :=
  ⟨(c10_pack_partitions_input [⟨1, 5⟩, ⟨3, 7⟩, ⟨6, 10⟩]).1,
    (c10_pack_partitions_input [⟨1, 5⟩, ⟨3, 7⟩, ⟨6, 10⟩]).2.1 [⟨3, 7⟩] (by decide)⟩

/-! ### The sort and the first-fit scan, as the spec describes them -/

theorem sortByStart_sorted (l : List Ivl) : (sortByStart l).Pairwise startLE :=
  List.sorted_insertionSort startLE l

theorem filter_startDate_orderedInsert (x : Ivl) (s : Int) :
    ∀ l : List Ivl,
      (List.orderedInsert startLE x l).filter (fun i => i.startDate == s) =
        if x.startDate == s then x :: l.filter (fun i => i.startDate == s)
        else l.filter (fun i => i.startDate == s) := by
  intro l
  induction l with
  | nil => by_cases h : x.startDate == s <;> simp [h]
  | cons b l ih =>
      by_cases hr : startLE x b
      · rw [List.orderedInsert, if_pos hr]
        by_cases h : x.startDate == s <;> simp [List.filter_cons, h]
      · rw [List.orderedInsert, if_neg hr]
        by_cases hb : b.startDate == s
        · by_cases h : x.startDate == s
          · exfalso
            apply hr
            show x.startDate ≤ b.startDate
            rw [beq_iff_eq] at h hb
            omega
          · simp [List.filter_cons, hb, ih, h]
        · simp [List.filter_cons, hb, ih]

theorem sortByStart_stable (l : List Ivl) (s : Int) :
    (sortByStart l).filter (fun i => i.startDate == s) =
      l.filter (fun i => i.startDate == s) := by
  induction l with
  | nil => rfl
  | cons x xs ih =>
      show (List.orderedInsert startLE x (List.insertionSort startLE xs)).filter _ = _
      rw [filter_startDate_orderedInsert x s]
      by_cases h : x.startDate == s
      · rw [if_pos h]
        rw [show (List.insertionSort startLE xs).filter (fun i => i.startDate == s) =
              xs.filter (fun i => i.startDate == s) from ih]
        simp [List.filter_cons, h]
      · rw [if_neg h]
        rw [show (List.insertionSort startLE xs).filter (fun i => i.startDate == s) =
              xs.filter (fun i => i.startDate == s) from ih]
        simp [List.filter_cons, h]

theorem placeInterval_first_fit (p : Ivl) :
    ∀ rows : List (List Ivl),
      (rows.findIdx (canPlaceInRow p) < rows.length →
        placeInterval p rows =
          rows.set (rows.findIdx (canPlaceInRow p))
            (rows.getD (rows.findIdx (canPlaceInRow p)) [] ++ [p])) ∧
      (rows.length ≤ rows.findIdx (canPlaceInRow p) →
        placeInterval p rows = rows ++ [[p]]) := by
  intro rows
  induction rows with
  | nil =>
      refine ⟨fun h => absurd h (by simp), fun _ => ?_⟩
      simp [placeInterval]
  | cons r rest ih =>
      by_cases hc : canPlaceInRow p r
      · refine ⟨fun _ => ?_, fun h => ?_⟩
        · simp [List.findIdx_cons, hc, placeInterval]
        · exfalso
          rw [List.findIdx_cons] at h
          rw [hc] at h
          simp at h
      · have hidx : (r :: rest).findIdx (canPlaceInRow p) =
            rest.findIdx (canPlaceInRow p) + 1 := by
          rw [List.findIdx_cons]
          simp [hc]
        refine ⟨fun h => ?_, fun h => ?_⟩
        · rw [hidx] at h ⊢
          have hlt : rest.findIdx (canPlaceInRow p) < rest.length := by
            simp only [List.length_cons] at h
            omega
          simp only [placeInterval, if_neg hc, List.set_cons_succ, List.getD_cons_succ]
          rw [ih.1 hlt]
        · rw [hidx] at h
          have hle : rest.length ≤ rest.findIdx (canPlaceInRow p) := by
            simp only [List.length_cons] at h
            omega
          simp only [placeInterval, if_neg hc, List.cons_append]
          rw [ih.2 hle]

/-- C3: pack processes the intervals sorted by start date ascending with ties
kept in input order (the sort is a permutation, sorted by startLE, and stable:
the subsequence at each start value is unchanged), places each interval by
scanning rows in creation order into the first row whose every member fits
(the findIdx row), appends a new row at the end when none fits, and returns
zero rows for an empty input. -/
theorem c3_sorted_first_fit_rows :
    (∀ l : List Ivl, (sortByStart l).Perm l ∧ (sortByStart l).Pairwise startLE) ∧
    (∀ (l : List Ivl) (s : Int),
      (sortByStart l).filter (fun i => i.startDate == s) =
        l.filter (fun i => i.startDate == s)) ∧
    (∀ l : List Ivl, pack l = packLoop (sortByStart l) []) ∧
    (∀ (p : Ivl) (rows : List (List Ivl)),
      (rows.findIdx (canPlaceInRow p) < rows.length →
        placeInterval p rows =
          rows.set (rows.findIdx (canPlaceInRow p))
            (rows.getD (rows.findIdx (canPlaceInRow p)) [] ++ [p])) ∧
      (rows.length ≤ rows.findIdx (canPlaceInRow p) →
        placeInterval p rows = rows ++ [[p]])) ∧
    pack [] = [] :=
  ⟨fun l => ⟨sortByStart_perm l, sortByStart_sorted l⟩,
   sortByStart_stable,
   fun _ => rfl,
   placeInterval_first_fit,
   rfl⟩

theorem c3_sorted_first_fit_rows_witness :
    (1 ≤ ([[⟨1, 5⟩]] : List (List Ivl)).findIdx (canPlaceInRow ⟨3, 7⟩)) ∧
      placeInterval ⟨3, 7⟩ [[⟨1, 5⟩]] = [[⟨1, 5⟩]] ++ [[⟨3, 7⟩]] :=
  ⟨by decide, (c3_sorted_first_fit_rows.2.2.2.1 ⟨3, 7⟩ [[⟨1, 5⟩]]).2 (by decide)⟩

/-! ### Row minimality of the greedy packing -/

theorem countActive_perm {l l' : List Ivl} (h : l.Perm l') (d : Int) :
    countActive l d = countActive l' d :=
  (h.filter _).length_eq

theorem countActive_append (a b : List Ivl) (d : Int) :
    countActive (a ++ b) d = countActive a d + countActive b d := by
  simp [countActive, List.filter_append]

theorem one_le_countActive_of_blocked {p : Ivl} {row : List Ivl}
    (hst : ∀ q ∈ row, q.startDate ≤ p.startDate)
    (hblock : ¬canPlaceInRow p row = true) :
    1 ≤ countActive row p.startDate := by
  rw [canPlaceInRow_iff] at hblock
  push_neg at hblock
  obtain ⟨q, hq, hnov⟩ := hblock
  have hover : overlaps p q = true := by
    cases h : overlaps p q
    · exact absurd ((overlaps_eq_false_iff p q).mp h) hnov
    · rfl
  have hact : activeAt q p.startDate = true := by
    simp only [overlaps, Bool.and_eq_true, decide_eq_true_eq, ge_iff_le] at hover
    simp only [activeAt, Bool.and_eq_true, decide_eq_true_eq]
    exact ⟨hst q hq, hover.1⟩
  have hmem : q ∈ row.filter (fun i => activeAt i p.startDate) :=
    List.mem_filter.mpr ⟨hq, hact⟩
  have := List.length_pos_of_mem hmem
  simp only [countActive]
  omega

theorem countActive_le_one_of_pairwise {row : List Ivl}
    (h : row.Pairwise nonOv) (d : Int) : countActive row d ≤ 1 := by
  have hp : (row.filter (fun i => activeAt i d)).Pairwise nonOv := h.filter _
  rw [countActive]
  match hfe : row.filter (fun i => activeAt i d) with
  | [] => simp
  | [_] => simp
  | x :: y :: t =>
      exfalso
      rw [hfe] at hp
      have hxy : nonOv x y := (List.pairwise_cons.mp hp).1 y (by simp)
      have hx : x ∈ row.filter (fun i => activeAt i d) := by rw [hfe]; simp
      have hy : y ∈ row.filter (fun i => activeAt i d) := by rw [hfe]; simp
      have hax := (List.mem_filter.mp hx).2
      have hay := (List.mem_filter.mp hy).2
      simp only [activeAt, Bool.and_eq_true, decide_eq_true_eq] at hax hay
      rcases hxy with h1 | h1 <;> omega

theorem countActive_flatten_le_rows_length {rows : List (List Ivl)}
    (h : ∀ row ∈ rows, row.Pairwise nonOv) (d : Int) :
    countActive rows.flatten d ≤ rows.length := by
  induction rows with
  | nil => simp [countActive]
  | cons r rest ih =>
      rw [List.flatten_cons, countActive_append]
      have h1 := countActive_le_one_of_pairwise (h r (by simp)) d
      have h2 := ih (fun row hr => h row (by simp [hr]))
      simp only [List.length_cons]
      omega

theorem rows_length_le_countActive_flatten {p : Ivl} {rows : List (List Ivl)}
    (hst : ∀ q ∈ rows.flatten, q.startDate ≤ p.startDate)
    (hblock : ∀ row ∈ rows, ¬canPlaceInRow p row = true) :
    rows.length ≤ countActive rows.flatten p.startDate := by
  induction rows with
  | nil => simp
  | cons r rest ih =>
      rw [List.flatten_cons, countActive_append]
      have h1 : 1 ≤ countActive r p.startDate :=
        one_le_countActive_of_blocked
          (fun q hq => hst q (by simp [hq])) (hblock r (by simp))
      have h2 := ih (fun q hq => hst q (by simp [hq]))
        (fun row hr => hblock row (by simp [hr]))
      simp only [List.length_cons]
      omega

theorem placeInterval_length_cases (p : Ivl) :
    ∀ rows : List (List Ivl),
      (placeInterval p rows).length = rows.length ∨
        ((placeInterval p rows).length = rows.length + 1 ∧
          ∀ row ∈ rows, ¬canPlaceInRow p row = true) := by
  intro rows
  induction rows with
  | nil => right; exact ⟨by simp [placeInterval], by simp⟩
  | cons r rest ih =>
      by_cases hc : canPlaceInRow p r
      · left; simp [placeInterval, hc]
      · rcases ih with h | ⟨h, hall⟩
        · left; simp [placeInterval, hc, h]
        · right
          refine ⟨by simp [placeInterval, hc, h], ?_⟩
          intro row hr
          rcases List.mem_cons.mp hr with rfl | hr
          · exact hc
          · exact hall row hr

theorem packLoop_length_bound :
    ∀ (todo : List Ivl) (rows : List (List Ivl)),
      todo.Pairwise startLE →
      (∀ i ∈ todo, i.startDate ≤ i.endDate) →
      (∀ q ∈ rows.flatten, ∀ i ∈ todo, q.startDate ≤ i.startDate) →
      (packLoop todo rows).length ≤ rows.length ∨
        ∃ i ∈ todo,
          (packLoop todo rows).length ≤ countActive (rows.flatten ++ todo) i.startDate := by
  intro todo
  induction todo with
  | nil => intro rows _ _ _; left; simp [packLoop_nil]
  | cons p rest ih =>
      intro rows hsorted hnorm hle
      rw [packLoop_cons]
      have hsorted' : rest.Pairwise startLE := (List.pairwise_cons.mp hsorted).2
      have hhead : ∀ i ∈ rest, p.startDate ≤ i.startDate :=
        fun i hi => (List.pairwise_cons.mp hsorted).1 i hi
      have hle' : ∀ q ∈ (placeInterval p rows).flatten, ∀ i ∈ rest,
          q.startDate ≤ i.startDate := by
        intro q hq i hi
        have hq' : q ∈ p :: rows.flatten := (flatten_placeInterval p rows).mem_iff.mp hq
        rcases List.mem_cons.mp hq' with rfl | hq'
        · exact hhead i hi
        · exact hle q hq' i (by simp [hi])
      rcases ih (placeInterval p rows) hsorted'
          (fun i hi => hnorm i (by simp [hi])) hle' with h | ⟨i, hi, h⟩
      · rcases placeInterval_length_cases p rows with heq | ⟨heq, hblock⟩
        · left; omega
        · right
          refine ⟨p, by simp, ?_⟩
          have h1 : rows.length ≤ countActive rows.flatten p.startDate :=
            rows_length_le_countActive_flatten
              (fun q hq => hle q hq p (by simp)) hblock
          have hp : activeAt p p.startDate = true := by
            simp only [activeAt, Bool.and_eq_true, decide_eq_true_eq]
            exact ⟨le_refl _, hnorm p (by simp)⟩
          have h2 := countActive_append rows.flatten (p :: rest) p.startDate
          have h3 : 1 ≤ countActive (p :: rest) p.startDate := by
            have hm : p ∈ (p :: rest).filter (fun i => activeAt i p.startDate) :=
              List.mem_filter.mpr ⟨by simp, hp⟩
            have := List.length_pos_of_mem hm
            simp only [countActive]
            omega
          omega
      · right
        refine ⟨i, by simp [hi], ?_⟩
        have hperm : ((placeInterval p rows).flatten ++ rest).Perm
            (rows.flatten ++ p :: rest) := by
          refine (((flatten_placeInterval p rows).append_right rest).trans ?_)
          exact List.perm_middle.symm
        calc (packLoop rest (placeInterval p rows)).length
            ≤ countActive ((placeInterval p rows).flatten ++ rest) i.startDate := h
          _ = countActive (rows.flatten ++ p :: rest) i.startDate :=
              countActive_perm hperm i.startDate

theorem countActive_le_pack_length (l : List Ivl) (d : Int) :
    countActive l d ≤ (pack l).length := by
  have h1 : countActive (pack l).flatten d = countActive l d :=
    countActive_perm (flatten_pack l) d
  have h2 := countActive_flatten_le_rows_length (pairwise_rows_pack l) d
  omega

theorem pack_length_le_exists (l : List Ivl)
    (hnorm : ∀ i ∈ l, i.startDate ≤ i.endDate) :
    ∃ d, (pack l).length ≤ countActive l d := by
  have hperm := sortByStart_perm l
  have hb := packLoop_length_bound (sortByStart l) []
    (sortByStart_sorted l)
    (fun i hi => hnorm i (hperm.mem_iff.mp hi))
    (by simp)
  rcases hb with h | ⟨i, hi, h⟩
  · refine ⟨0, ?_⟩
    have h0 : (pack l).length = 0 := by simpa [pack] using h
    rw [h0]
    exact Nat.zero_le _
  · refine ⟨i.startDate, ?_⟩
    have heq : countActive (sortByStart l) i.startDate = countActive l i.startDate :=
      countActive_perm hperm i.startDate
    have h' : (pack l).length ≤ countActive (sortByStart l) i.startDate := by
      simpa [pack] using h
    exact heq ▸ h'

/-- C1: for a group of normalized intervals (start <= end), pack uses exactly
the minimum number of rows: the number of packed rows is an upper bound for
the number of intervals active on any single day, and is attained on some
day (so it equals the interval graph's clique number); on the concrete input
[1,5], [3,7], [6,10] it returns exactly the two rows [[1,5],[6,10]] and
[[3,7]]. -/
theorem c1_pack_rows_equal_max_overlap (l : List Ivl)
    (hnorm : ∀ i ∈ l, i.startDate ≤ i.endDate) :
    (∀ d, countActive l d ≤ (pack l).length) ∧
      (∃ d, countActive l d = (pack l).length) ∧
      pack [⟨1, 5⟩, ⟨3, 7⟩, ⟨6, 10⟩] = [[⟨1, 5⟩, ⟨6, 10⟩], [⟨3, 7⟩]] := by
  refine ⟨fun d => countActive_le_pack_length l d, ?_, by decide⟩
  obtain ⟨d, hd⟩ := pack_length_le_exists l hnorm
  exact ⟨d, le_antisymm (countActive_le_pack_length l d) hd⟩

theorem c1_pack_rows_equal_max_overlap_witness :
    (∀ i ∈ ([⟨1, 5⟩, ⟨3, 7⟩, ⟨6, 10⟩] : List Ivl), i.startDate ≤ i.endDate) ∧
      ∃ d, countActive [⟨1, 5⟩, ⟨3, 7⟩, ⟨6, 10⟩] d =
        (pack [⟨1, 5⟩, ⟨3, 7⟩, ⟨6, 10⟩]).length :=
  ⟨by decide, (c1_pack_rows_equal_max_overlap _ (by decide)).2.1⟩

/-! ### The in-place sort seen by the caller -/

/-- Counterexample for C9: the engine does mutate a caller-supplied interval
list.  populateCustomerRows sorts customerData in place, so after packing the
caller's list [ [3,4], [1,2] ] reads [ [1,2], [3,4] ]: the original element
order is not preserved. -/
theorem c9_mutation_counterexample :
    customerDataAfterPack [⟨3, 4⟩, ⟨1, 2⟩] ≠ ([⟨3, 4⟩, ⟨1, 2⟩] : List Ivl) := by
  decide

/-- C9 amended: the engine does reorder the caller's interval list (the
in-place sort), but only reorders it: afterwards the list is a permutation of
the original, stably sorted by start date, and in particular every interval
keeps its original startDate and endDate values (the multiset of date pairs
is unchanged); packing itself adds or removes nothing. -/
theorem c9_caller_list_only_reordered (l : List Ivl) :
    (customerDataAfterPack l).Perm l ∧
      (customerDataAfterPack l).Pairwise startLE ∧
      (∀ s : Int, (customerDataAfterPack l).filter (fun i => i.startDate == s) =
        l.filter (fun i => i.startDate == s)) ∧
      ((customerDataAfterPack l).map (fun i => (i.startDate, i.endDate))).Perm
        (l.map (fun i => (i.startDate, i.endDate))) :=
  ⟨sortByStart_perm l, sortByStart_sorted l, sortByStart_stable l,
    (sortByStart_perm l).map _⟩

/-! ### The color assigner -/

theorem runRequests_nil (st : ColorState) : runRequests [] st = st := rfl

theorem runRequests_cons (r : String) (rest : List String) (st : ColorState) :
    runRequests (r :: rest) st = runRequests rest (getProjectColor st r).2 := rfl

theorem lookup_none_iff (a : String) :
    ∀ l : List (String × String), l.lookup a = none ↔ a ∉ l.map Prod.fst := by
  intro l
  induction l with
  | nil => simp
  | cons p rest ih =>
      obtain ⟨k, v⟩ := p
      by_cases h : a = k
      · subst h
        simp [List.lookup_cons]
      · rw [List.lookup_cons]
        rw [show (a == k) = false from beq_eq_false_iff_ne.mpr h]
        simpa [h] using ih

theorem lookup_getProjectColor_self (st : ColorState) (pid : String) :
    ((getProjectColor st pid).2).projectColors.lookup pid =
      some (getProjectColor st pid).1 := by
  unfold getProjectColor
  match h : st.projectColors.lookup pid with
  | some c => simp [h]
  | none => simp [h, List.lookup_cons]

theorem lookup_preserved_step (st : ColorState) (pid r c : String)
    (h : st.projectColors.lookup pid = some c) :
    ((getProjectColor st r).2).projectColors.lookup pid = some c := by
  unfold getProjectColor
  match hr : st.projectColors.lookup r with
  | some c' => simp [hr, h]
  | none =>
      have hne : pid ≠ r := by
        rintro rfl
        rw [h] at hr
        cases hr
      simp only []
      rw [List.lookup_cons]
      rw [show (pid == r) = false from beq_eq_false_iff_ne.mpr hne]
      exact h

theorem lookup_preserved_run (reqs : List String) :
    ∀ (st : ColorState) (pid c : String),
      st.projectColors.lookup pid = some c →
      (runRequests reqs st).projectColors.lookup pid = some c := by
  induction reqs with
  | nil => intro st pid c h; exact h
  | cons r rest ih =>
      intro st pid c h
      rw [runRequests_cons]
      exact ih _ pid c (lookup_preserved_step st pid r c h)

theorem getProjectColor_of_lookup {st : ColorState} {pid c : String}
    (h : st.projectColors.lookup pid = some c) : (getProjectColor st pid).1 = c := by
  unfold getProjectColor
  simp [h]

theorem counter_eq_length_run (reqs : List String) :
    ∀ st : ColorState, st.colorIndex = st.projectColors.length →
      (runRequests reqs st).colorIndex = (runRequests reqs st).projectColors.length := by
  induction reqs with
  | nil => intro st h; exact h
  | cons r rest ih =>
      intro st h
      rw [runRequests_cons]
      refine ih _ ?_
      unfold getProjectColor
      match hr : st.projectColors.lookup r with
      | some c => simpa [hr] using h
      | none => simp [hr, h]

theorem mem_keys_run (reqs : List String) :
    ∀ (st : ColorState) (a : String),
      a ∈ keysOf (runRequests reqs st) ↔ a ∈ keysOf st ∨ a ∈ reqs := by
  induction reqs with
  | nil => intro st a; simp [runRequests_nil]
  | cons r rest ih =>
      intro st a
      rw [runRequests_cons, ih]
      unfold getProjectColor
      match hr : st.projectColors.lookup r with
      | some c =>
          simp only [hr]
          constructor
          · rintro (h | h)
            · exact Or.inl h
            · exact Or.inr (by simp [h])
          · rintro (h | h)
            · exact Or.inl h
            · rcases List.mem_cons.mp h with rfl | h
              · left
                by_contra hmem
                rw [(lookup_none_iff a st.projectColors).mpr hmem] at hr
                cases hr
              · exact Or.inr h
      | none =>
          simp only [hr, keysOf, List.map_cons]
          constructor
          · rintro (h | h)
            · rcases List.mem_cons.mp h with rfl | h
              · exact Or.inr (by simp)
              · exact Or.inl h
            · exact Or.inr (by simp [h])
          · rintro (h | h)
            · exact Or.inl (List.mem_cons_of_mem _ h)
            · rcases List.mem_cons.mp h with rfl | h
              · exact Or.inl (by simp)
              · exact Or.inr h

theorem nodup_keys_run (reqs : List String) :
    ∀ st : ColorState, (keysOf st).Nodup → (keysOf (runRequests reqs st)).Nodup := by
  induction reqs with
  | nil => intro st h; exact h
  | cons r rest ih =>
      intro st h
      rw [runRequests_cons]
      refine ih _ ?_
      unfold getProjectColor
      match hr : st.projectColors.lookup r with
      | some c => simpa [hr] using h
      | none =>
          simp only [hr, keysOf, List.map_cons, List.nodup_cons]
          exact ⟨(lookup_none_iff r st.projectColors).mp hr, h⟩

theorem keys_length_eq_dedup (reqs : List String) :
    (runRequests reqs initialColorState).projectColors.length = reqs.dedup.length := by
  have hmem : ∀ a, a ∈ keysOf (runRequests reqs initialColorState) ↔ a ∈ reqs := by
    intro a
    rw [mem_keys_run]
    simp [keysOf, initialColorState]
  have hnodup : (keysOf (runRequests reqs initialColorState)).Nodup :=
    nodup_keys_run reqs initialColorState (by simp [keysOf, initialColorState])
  have hfin : (keysOf (runRequests reqs initialColorState)).toFinset = reqs.toFinset := by
    apply Finset.ext
    intro a
    simp [List.mem_toFinset, hmem]
  have h1 : (keysOf (runRequests reqs initialColorState)).length =
      (keysOf (runRequests reqs initialColorState)).toFinset.card :=
    (List.toFinset_card_of_nodup hnodup).symm
  have h2 : reqs.toFinset.card = reqs.dedup.length := List.card_toFinset reqs
  have h3 : (keysOf (runRequests reqs initialColorState)).length =
      (runRequests reqs initialColorState).projectColors.length := by
    simp [keysOf]
  rw [← h3, h1, hfin, h2]

/-- C7: within one run the color assigner is stable and cycles: a request for
an identifier first seen earlier in the run returns the color of that first
request, and a request for a fresh identifier after n distinct identifiers
have been seen returns palette[n mod palette length] (so with the 19-color
palette the 20th distinct identifier gets palette[0]). -/
theorem c7_color_assigner_stable_cycles :
    (∀ (reqs1 reqs2 : List String) (pid : String),
      (getProjectColor (runRequests (reqs1 ++ pid :: reqs2) initialColorState) pid).1 =
        (getProjectColor (runRequests reqs1 initialColorState) pid).1) ∧
      (∀ (reqs : List String) (pid : String), pid ∉ reqs →
        (getProjectColor (runRequests reqs initialColorState) pid).1 =
          availableColors.getD (reqs.dedup.length % availableColors.length) "") ∧
      availableColors.length = 19 := by
  refine ⟨?_, ?_, rfl⟩
  · intro reqs1 reqs2 pid
    have hsplit : runRequests (reqs1 ++ pid :: reqs2) initialColorState =
        runRequests reqs2
          (getProjectColor (runRequests reqs1 initialColorState) pid).2 := by
      simp [runRequests, List.foldl_append]
    rw [hsplit]
    have h1 := lookup_getProjectColor_self (runRequests reqs1 initialColorState) pid
    have h2 := lookup_preserved_run reqs2 _ pid _ h1
    exact getProjectColor_of_lookup h2
  · intro reqs pid hnew
    have hnone : (runRequests reqs initialColorState).projectColors.lookup pid = none := by
      rw [lookup_none_iff]
      show pid ∉ keysOf (runRequests reqs initialColorState)
      rw [mem_keys_run]
      simp [keysOf, initialColorState, hnew]
    have hcnt : (runRequests reqs initialColorState).colorIndex = reqs.dedup.length := by
      rw [counter_eq_length_run reqs initialColorState (by simp [initialColorState])]
      exact keys_length_eq_dedup reqs
    unfold getProjectColor
    simp [hnone, hcnt]

theorem c7_color_assigner_stable_cycles_witness :
    ("P20" ∉ ["P01", "P02", "P03", "P04", "P05", "P06", "P07", "P08", "P09", "P10",
      "P11", "P12", "P13", "P14", "P15", "P16", "P17", "P18", "P19"]) ∧
      (getProjectColor (runRequests
        ["P01", "P02", "P03", "P04", "P05", "P06", "P07", "P08", "P09", "P10",
         "P11", "P12", "P13", "P14", "P15", "P16", "P17", "P18", "P19"]
        initialColorState) "P20").1 = "#ADD8E6" := by
  refine ⟨by decide, ?_⟩
  rw [c7_color_assigner_stable_cycles.2.1
    ["P01", "P02", "P03", "P04", "P05", "P06", "P07", "P08", "P09", "P10",
     "P11", "P12", "P13", "P14", "P15", "P16", "P17", "P18", "P19"] "P20" (by decide)]
  decide

/-! ### End-before-start normalization (the setDate slip) -/

/-- C4 evaluation at a failing input: for start = 2025-05-20 and
end = 2025-03-10 (end strictly before start, different months), the source's
endDate.setDate(startDate.getDate()) produces 2025-03-20, which is neither
equal to the start nor on or after it — the interval is not clamped to a
zero-length one, contradicting both the spec and the source's own log message
"Adjusting end date to start date".  In the same-month case the slip is
invisible (2025-04-10 against start 2025-04-20 does become the start), and
the updateProjectTimelines variant clamps correctly. -/
theorem c4_end_clamp_failing_input :
    normalizeEndDate (mkDate 2025 4 20) (mkDate 2025 2 10) = mkDate 2025 2 20 ∧
      normalizeEndDate (mkDate 2025 4 20) (mkDate 2025 2 10) ≠ mkDate 2025 4 20 ∧
      normalizeEndDate (mkDate 2025 4 20) (mkDate 2025 2 10) < mkDate 2025 4 20 ∧
      normalizeEndDate (mkDate 2025 4 20) (mkDate 2025 4 10) = mkDate 2025 4 20 ∧
      normalizeEndDateProjects (mkDate 2025 4 20) (mkDate 2025 2 10) = mkDate 2025 4 20 := by
  decide

/-! ### Bar-to-column resolution -/

/-- Counterexample for C8: over the work-week index for 2025-01-06..2025-01-17
(columns 3..12, weekend days unmapped), an interval starting Saturday
2025-01-11 has no column; the code clamps its start to the constant column 2
— not to the nearest valid column at or after the date, which is column 8
(Monday 2025-01-13) — and column 2 is not even a data column of this index. -/
theorem c8_clamp_counterexample :
    lookupDay (indexEntries 3 (Code.generateTimelineDays 2025 0 6 2025 0 17))
        (mkDate 2025 0 11) = none ∧
      nearestColAtOrAfter (indexEntries 3 (Code.generateTimelineDays 2025 0 6 2025 0 17))
        (mkDate 2025 0 11) = some 8 ∧
      (resolveBarCols (indexEntries 3 (Code.generateTimelineDays 2025 0 6 2025 0 17))
        12 (mkDate 2025 0 11) (mkDate 2025 0 15)).1 = 2 ∧
      (2 : Int) ≠ 8 := by
  decide

theorem lookupDay_mem {m : List (Int × Int)} {d c : Int}
    (h : lookupDay m d = some c) : ∃ p ∈ m, p.2 = c := by
  unfold lookupDay at h
  match hf : m.find? (fun p => p.1 == d) with
  | none => rw [hf] at h; cases h
  | some p =>
      rw [hf] at h
      refine ⟨p, List.mem_of_find?_eq_some hf, ?_⟩
      simpa using h

/-- C8 amended: in the people-bar path a missing start column is clamped to
the constant first data column 2 (not the nearest at-or-after column), a
missing end column is clamped to the last header column, no anomaly is
recorded, and the bar is always kept: the resolved pair always satisfies
start <= end (an inverted pair is fixed by raising the end to the start), and
when both days are indexed the bar spans their columns. -/
theorem c8_clamp_to_edges (m : List (Int × Int)) (tot s e : Int)
    (hwf : ∀ p ∈ m, 2 ≤ p.2 ∧ p.2 ≤ tot) (htot : 2 ≤ tot) :
    (resolveBarCols m tot s e).1 ≤ (resolveBarCols m tot s e).2 ∧
      (lookupDay m s = none → (resolveBarCols m tot s e).1 = 2) ∧
      (lookupDay m e = none → (resolveBarCols m tot s e).2 = tot) ∧
      (∀ cs ce, lookupDay m s = some cs → lookupDay m e = some ce →
        resolveBarCols m tot s e = (cs, max cs ce)) := by
  have hs2 : ∀ cs, lookupDay m s = some cs → 2 ≤ cs ∧ cs ≤ tot := by
    intro cs h
    obtain ⟨p, hp, hpc⟩ := lookupDay_mem h
    have := hwf p hp
    omega
  have he2 : ∀ ce, lookupDay m e = some ce → 2 ≤ ce ∧ ce ≤ tot := by
    intro ce h
    obtain ⟨p, hp, hpc⟩ := lookupDay_mem h
    have := hwf p hp
    omega
  refine ⟨?_, ?_, ?_, ?_⟩
  · cases hls : lookupDay m s with
    | none =>
        cases hle : lookupDay m e with
        | none =>
            simp only [resolveBarCols, hls, hle]
            split_ifs <;> simp <;> omega
        | some ce =>
            simp only [resolveBarCols, hls, hle]
            split_ifs <;> simp <;> omega
    | some cs =>
        cases hle : lookupDay m e with
        | none =>
            have h1 := hs2 cs hls
            simp only [resolveBarCols, hls, hle]
            split_ifs <;> simp <;> omega
        | some ce =>
            have h1 := hs2 cs hls
            have h2 := he2 ce hle
            simp only [resolveBarCols, hls, hle]
            split_ifs <;> simp <;> omega
  · intro hls
    cases hle : lookupDay m e with
    | none =>
        simp only [resolveBarCols, hls, hle]
        split_ifs <;> simp
    | some ce =>
        simp only [resolveBarCols, hls, hle]
        split_ifs <;> simp
  · intro hle
    cases hls : lookupDay m s with
    | none =>
        simp only [resolveBarCols, hls, hle]
        split_ifs <;> simp <;> omega
    | some cs =>
        have h1 := hs2 cs hls
        simp only [resolveBarCols, hls, hle]
        split_ifs <;> simp <;> omega
  · intro cs ce hls hle
    have h1 := hs2 cs hls
    have h2 := he2 ce hle
    simp only [resolveBarCols, hls, hle]
    have hc1 : ¬ cs < 2 := by omega
    have hc2 : ¬ ce < 2 := by omega
    simp only [if_neg hc1, if_neg hc2]
    split_ifs <;> rw [Prod.mk.injEq] <;> omega

theorem c8_clamp_to_edges_witness :
    (∀ p ∈ [((5 : Int), (2 : Int)), (7, 3)], 2 ≤ p.2 ∧ p.2 ≤ 3) ∧ ((2 : Int) ≤ 3) ∧
      (resolveBarCols [(5, 2), (7, 3)] 3 6 7).1 ≤ (resolveBarCols [(5, 2), (7, 3)] 3 6 7).2 :=
  ⟨by decide, by decide, (c8_clamp_to_edges [(5, 2), (7, 3)] 3 6 7 (by decide) (by decide)).1⟩

/-! ### Week coverage of the column index -/

theorem mkDate_day_shift (y m d k : Int) : mkDate y m (d + k) = mkDate y m d + k := by
  simp only [mkDate, daysFromCivil]
  ring

theorem getStartOfWeek_days (y m d : Int) :
    getStartOfWeek y m d = mkDate y m d - (mkDate y m d + 3) % 7 := by
  show mkDate y m (d - getDay (mkDate y m d) +
    (if getDay (mkDate y m d) = 0 then -6 else 1)) = _
  rw [show d - getDay (mkDate y m d) + (if getDay (mkDate y m d) = 0 then -6 else 1) =
      d + (-(getDay (mkDate y m d)) + (if getDay (mkDate y m d) = 0 then -6 else 1)) by ring]
  rw [mkDate_day_shift]
  unfold getDay
  split_ifs with h <;> omega

theorem getDay_getStartOfWeek (y m d : Int) : getDay (getStartOfWeek y m d) = 1 := by
  rw [getStartOfWeek_days]
  unfold getDay
  omega

theorem getStartOfWeek_le_self (y m d : Int) :
    mkDate y m d - 6 ≤ getStartOfWeek y m d ∧ getStartOfWeek y m d ≤ mkDate y m d := by
  rw [getStartOfWeek_days]
  omega

theorem getStartOfWeek_mono {y1 m1 d1 y2 m2 d2 : Int}
    (h : mkDate y1 m1 d1 ≤ mkDate y2 m2 d2) :
    getStartOfWeek y1 m1 d1 ≤ getStartOfWeek y2 m2 d2 := by
  rw [getStartOfWeek_days, getStartOfWeek_days]
  omega

theorem dayWalkAux_eq_nil (fuel : Nat) (c last : Int) (h : ¬c ≤ last) :
    dayWalkAux fuel c last = [] := by
  cases fuel <;> simp [dayWalkAux, h]

theorem getLast?_cons_of_ne_nil {α : Type} {a : α} {l : List α} (h : l ≠ []) :
    (a :: l).getLast? = l.getLast? := by
  cases l with
  | nil => exact absurd rfl h
  | cons b t => exact List.getLast?_cons_cons

theorem dayWalkAux_getLast? :
    ∀ (fuel : Nat) (c last : Int), (last + 1 - c).toNat ≤ fuel → c ≤ last →
      (dayWalkAux fuel c last).getLast? = some last := by
  intro fuel
  induction fuel with
  | zero => intro c last hf h; exfalso; omega
  | succ n ih =>
      intro c last hf h
      simp only [dayWalkAux, if_pos h]
      by_cases h2 : c + 1 ≤ last
      · have hfn : (last + 1 - (c + 1)).toNat ≤ n := by omega
        have hl := ih (c + 1) last hfn h2
        have hne : dayWalkAux n (c + 1) last ≠ [] := by
          intro hnil
          rw [hnil] at hl
          cases hl
        rw [getLast?_cons_of_ne_nil hne]
        exact hl
      · have hceq : c = last := by omega
        rw [dayWalkAux_eq_nil n (c + 1) last h2]
        rw [hceq]
        rfl

theorem dayWalk_head? (first last : Int) (h : first ≤ last) :
    (dayWalk first last).head? = some first := by
  unfold dayWalk
  have hf : 0 < (last + 1 - first).toNat := by omega
  cases hfe : (last + 1 - first).toNat with
  | zero => omega
  | succ n => simp [dayWalkAux, h]

theorem dayWalk_getLast? (first last : Int) (h : first ≤ last) :
    (dayWalk first last).getLast? = some last := by
  unfold dayWalk
  exact dayWalkAux_getLast? _ first last (le_refl _) h

theorem head?_filter_of_pos {p : Int → Bool} {x : Int} {l : List Int}
    (hl : l.head? = some x) (hx : p x = true) : (l.filter p).head? = some x := by
  cases l with
  | nil => cases hl
  | cons a t =>
      rw [List.head?_cons] at hl
      injection hl with hl
      rw [hl]
      rw [List.filter_cons, if_pos hx]
      rfl

theorem getLast?_filter_of_pos {p : Int → Bool} {x : Int} :
    ∀ {l : List Int}, l.getLast? = some x → p x = true →
      (l.filter p).getLast? = some x := by
  intro l
  induction l with
  | nil => intro hl; cases hl
  | cons a t ih =>
      intro hl hx
      cases t with
      | nil =>
          simp only [List.getLast?_singleton] at hl
          injection hl with hl
          rw [hl]
          simp [List.filter_cons, hx]
      | cons b t2 =>
          rw [List.getLast?_cons_cons] at hl
          have htail := ih hl hx
          have hne : (b :: t2).filter p ≠ [] := by
            intro hnil
            rw [hnil] at htail
            cases htail
          rw [List.filter_cons]
          split
          · rw [getLast?_cons_of_ne_nil hne]
            exact htail
          · exact htail

theorem getDay_end_of_week_code (y m d : Int) : getDay (Code.getEndOfWeek y m d) = 5 := by
  unfold Code.getEndOfWeek
  rw [getStartOfWeek_days]
  unfold getDay
  omega

theorem getDay_end_of_week_partZero (y m d : Int) :
    getDay (PartZero.getEndOfWeek y m d) = 0 := by
  unfold PartZero.getEndOfWeek
  rw [getStartOfWeek_days]
  unfold getDay
  omega

/-- C6: getStartOfWeek always lands on the Monday of its argument's week (a
Monday at most 6 days back), and for any requested min <= max the built
column index starts on that Monday and ends on the computed end of week: a
Friday in the work-week index of src/Code.js, a Sunday in the full-week index
of src/unnamed/part_000, regardless of the requested dates falling mid-week. -/
theorem c6_index_covers_whole_weeks :
    (∀ y m d : Int, getDay (getStartOfWeek y m d) = 1 ∧
      mkDate y m d - 6 ≤ getStartOfWeek y m d ∧ getStartOfWeek y m d ≤ mkDate y m d) ∧
    (∀ y1 m1 d1 y2 m2 d2 : Int, mkDate y1 m1 d1 ≤ mkDate y2 m2 d2 →
      (Code.generateTimelineDays y1 m1 d1 y2 m2 d2).head? =
          some (getStartOfWeek y1 m1 d1) ∧
        (Code.generateTimelineDays y1 m1 d1 y2 m2 d2).getLast? =
          some (Code.getEndOfWeek y2 m2 d2) ∧
        getDay (Code.getEndOfWeek y2 m2 d2) = 5 ∧
        (PartZero.generateTimelineDays y1 m1 d1 y2 m2 d2).head? =
          some (getStartOfWeek y1 m1 d1) ∧
        (PartZero.generateTimelineDays y1 m1 d1 y2 m2 d2).getLast? =
          some (PartZero.getEndOfWeek y2 m2 d2) ∧
        getDay (PartZero.getEndOfWeek y2 m2 d2) = 0) := by
  constructor
  · intro y m d
    exact ⟨getDay_getStartOfWeek y m d, (getStartOfWeek_le_self y m d).1,
      (getStartOfWeek_le_self y m d).2⟩
  · intro y1 m1 d1 y2 m2 d2 h
    have hmono := getStartOfWeek_mono h
    have hle4 : getStartOfWeek y1 m1 d1 ≤ Code.getEndOfWeek y2 m2 d2 := by
      unfold Code.getEndOfWeek
      omega
    have hle6 : getStartOfWeek y1 m1 d1 ≤ PartZero.getEndOfWeek y2 m2 d2 := by
      unfold PartZero.getEndOfWeek
      omega
    have hwd1 : isWorkday (getStartOfWeek y1 m1 d1) = true := by
      unfold isWorkday
      rw [getDay_getStartOfWeek]
      decide
    have hwd5 : isWorkday (Code.getEndOfWeek y2 m2 d2) = true := by
      unfold isWorkday
      rw [getDay_end_of_week_code]
      decide
    refine ⟨?_, ?_, getDay_end_of_week_code y2 m2 d2, ?_, ?_,
      getDay_end_of_week_partZero y2 m2 d2⟩
    · exact head?_filter_of_pos (dayWalk_head? _ _ hle4) hwd1
    · exact getLast?_filter_of_pos (dayWalk_getLast? _ _ hle4) hwd5
    · exact dayWalk_head? _ _ hle6
    · exact dayWalk_getLast? _ _ hle6

theorem c6_index_covers_whole_weeks_witness :
    (mkDate 2025 0 8 ≤ mkDate 2025 0 9) ∧
      (Code.generateTimelineDays 2025 0 8 2025 0 9).head? =
        some (getStartOfWeek 2025 0 8) ∧
      (PartZero.generateTimelineDays 2025 0 8 2025 0 9).getLast? =
        some (PartZero.getEndOfWeek 2025 0 9) :=
  ⟨by decide, (c6_index_covers_whole_weeks.2 2025 0 8 2025 0 9 (by decide)).1,
    (c6_index_covers_whole_weeks.2 2025 0 8 2025 0 9 (by decide)).2.2.2.2.1⟩

/-! ### Term segmentation -/

/-- Counterexample for C5: over the full-week index for
2024-10-28..2024-11-08 (columns 2..15), with the TERMS_DATA catalog of
src/unnamed/part_000, the days 2024-10-28..2024-11-02 (columns 2..7) resolve
to no term; the segmentation emits the single merge range [8, 15] for
T4 2024 and no segment at all for the no-term run, so the concatenated
ranges do not reproduce the full column axis: column 2 is a data column that
lies in no segment. -/
theorem c5_tiling_counterexample :
    computeTermMergeRanges (getTermForDate TERMS_DATA)
        (indexEntries 2 (PartZero.generateTimelineDays 2024 9 28 2024 10 8)) =
      [⟨8, 15, "T4 2024", "#96CEB4"⟩] ∧
      coveredCols (computeTermMergeRanges (getTermForDate TERMS_DATA)
          (indexEntries 2 (PartZero.generateTimelineDays 2024 9 28 2024 10 8))) ≠
        (indexEntries 2 (PartZero.generateTimelineDays 2024 9 28 2024 10 8)).map
          Prod.snd ∧
      (2 : Int) ∈ (indexEntries 2
        (PartZero.generateTimelineDays 2024 9 28 2024 10 8)).map Prod.snd ∧
      (2 : Int) ∉ coveredCols (computeTermMergeRanges (getTermForDate TERMS_DATA)
        (indexEntries 2 (PartZero.generateTimelineDays 2024 9 28 2024 10 8))) := by
  decide

theorem intRangeIncl_self (a : Int) : intRangeIncl a a = [a] := by
  unfold intRangeIncl
  have h1 : (a + 1 - a).toNat = 1 := by omega
  rw [h1, show List.range 1 = [0] from rfl]
  simp

theorem intRangeIncl_snoc {a b : Int} (h : a ≤ b + 1) :
    intRangeIncl a (b + 1) = intRangeIncl a b ++ [b + 1] := by
  unfold intRangeIncl
  have h1 : (b + 1 + 1 - a).toNat = (b + 1 - a).toNat + 1 := by omega
  rw [h1, List.range_succ, List.map_append]
  simp only [List.map_cons, List.map_nil]
  congr 1
  congr 1
  omega

theorem segStep_step (tk : Int → Option (String × String)) (st : SegState) (d c0 : Int)
    (hc0 : 0 ≤ c0) (hg : goodSeg st c0) :
    goodSeg (segStep tk st (d, c0)) (c0 + 1) ∧
      coveredCols (segStep tk st (d, c0)).ranges ++ pendingCols (segStep tk st (d, c0)) =
        coveredCols st.ranges ++ pendingCols st ++
          (if (tk d).isSome then [c0] else []) := by
  rcases hg with hnone | ⟨hsome, hge, hle, hprev⟩
  · have hpend : pendingCols st = [] := by simp [pendingCols, hnone]
    cases htk : tk d with
    | none =>
        have hstep : segStep tk st (d, c0) = { st with prevCol := c0 } := by
          simp [segStep, htk, hnone]
        rw [hstep]
        refine ⟨Or.inl hnone, ?_⟩
        simp [pendingCols, hnone, hpend, htk]
    | some t =>
        have hstep : segStep tk st (d, c0) =
            ⟨st.ranges, some t.1, c0, some t.2, c0⟩ := by
          simp [segStep, htk, hnone]
        rw [hstep]
        constructor
        · refine Or.inr ⟨by simp, by simpa using hc0, le_refl c0, by ring⟩
        · have hc0' : c0 ≠ -1 := by omega
          have hpa : pendingCols ⟨st.ranges, some t.1, c0, some t.2, c0⟩ =
              intRangeIncl c0 c0 := by
            simp [pendingCols, hc0']
          rw [hpa, intRangeIncl_self, hpend]
          simp
  · obtain ⟨k, hk⟩ := Option.ne_none_iff_exists'.mp hsome
    have hsc : st.currentTermMergeStartCol ≠ -1 := by omega
    have hpend : pendingCols st =
        intRangeIncl st.currentTermMergeStartCol st.prevCol := by
      simp [pendingCols, hk, hsc]
    cases htk : tk d with
    | none =>
        have hstep : segStep tk st (d, c0) =
            ⟨st.ranges ++ [⟨st.currentTermMergeStartCol, st.prevCol,
                st.lastTermKey.getD (""), st.currentTermColor.getD ("")⟩],
              none, c0, none, c0⟩ := by
          simp [segStep, htk, hk, hsc]
        rw [hstep]
        refine ⟨Or.inl rfl, ?_⟩
        rw [hpend]
        have hpa : pendingCols ⟨st.ranges ++ [⟨st.currentTermMergeStartCol, st.prevCol,
            st.lastTermKey.getD (""), st.currentTermColor.getD ("")⟩],
            none, c0, none, c0⟩ = [] := by
          simp [pendingCols]
        rw [hpa]
        simp [coveredCols]
    | some t =>
        by_cases hb : t.1 = k
        · have hstep : segStep tk st (d, c0) = { st with prevCol := c0 } := by
            simp [segStep, htk, hk, hb]
          rw [hstep]
          constructor
          · refine Or.inr ⟨hsome, hge, ?_, ?_⟩
            · show st.currentTermMergeStartCol ≤ c0
              omega
            · show c0 = c0 + 1 - 1
              ring
          · have hpa : pendingCols { st with prevCol := c0 } =
                intRangeIncl st.currentTermMergeStartCol c0 := by
              simp [pendingCols, hk, hsc]
            rw [hpa, hpend]
            have hsplit : intRangeIncl st.currentTermMergeStartCol c0 =
                intRangeIncl st.currentTermMergeStartCol (c0 - 1) ++ [c0] := by
              have h' := intRangeIncl_snoc
                (a := st.currentTermMergeStartCol) (b := c0 - 1) (by omega)
              simpa using h'
            rw [hsplit, show st.prevCol = c0 - 1 from hprev]
            simp [List.append_assoc]
        · have hstep : segStep tk st (d, c0) =
              ⟨st.ranges ++ [⟨st.currentTermMergeStartCol, st.prevCol,
                  st.lastTermKey.getD (""), st.currentTermColor.getD ("")⟩],
                some t.1, c0, some t.2, c0⟩ := by
            simp [segStep, htk, hk, hb, hsc]
          rw [hstep]
          constructor
          · refine Or.inr ⟨by simp, by simpa using hc0, le_refl c0, by ring⟩
          · have hc0' : c0 ≠ -1 := by omega
            have hpa : pendingCols ⟨st.ranges ++ [⟨st.currentTermMergeStartCol, st.prevCol,
                st.lastTermKey.getD (""), st.currentTermColor.getD ("")⟩],
                some t.1, c0, some t.2, c0⟩ = intRangeIncl c0 c0 := by
              simp [pendingCols, hc0']
            rw [hpa, intRangeIncl_self, hpend]
            simp [coveredCols, List.append_assoc]

theorem termCols_cons (tk : Int → Option (String × String)) (e : Int × Int)
    (rest : List (Int × Int)) :
    termCols tk (e :: rest) =
      (if (tk e.1).isSome then [e.2] else []) ++ termCols tk rest := by
  unfold termCols
  rw [List.filter_cons]
  split <;> simp

theorem segLoop_covered (tk : Int → Option (String × String)) :
    ∀ (days : List Int) (c0 : Int) (st : SegState), 0 ≤ c0 → goodSeg st c0 →
      goodSeg ((indexEntries c0 days).foldl (segStep tk) st) (c0 + days.length) ∧
        coveredCols ((indexEntries c0 days).foldl (segStep tk) st).ranges ++
            pendingCols ((indexEntries c0 days).foldl (segStep tk) st) =
          coveredCols st.ranges ++ pendingCols st ++
            termCols tk (indexEntries c0 days) := by
  intro days
  induction days with
  | nil =>
      intro c0 st hc0 hg
      simp only [indexEntries, List.foldl_nil, List.length_nil]
      constructor
      · simpa using hg
      · simp [termCols]
  | cons d ds ih =>
      intro c0 st hc0 hg
      simp only [indexEntries, List.foldl_cons]
      obtain ⟨hg1, heq1⟩ := segStep_step tk st d c0 hc0 hg
      obtain ⟨hg2, heq2⟩ := ih (c0 + 1) (segStep tk st (d, c0)) (by omega) hg1
      constructor
      · have harith : c0 + (((d :: ds).length : Nat) : Int) =
            c0 + 1 + ((ds.length : Nat) : Int) := by
          push_cast [List.length_cons]
          ring
        rw [harith]
        exact hg2
      · rw [heq2, heq1, termCols_cons]
        simp [List.append_assoc]

theorem coveredCols_computeTermMergeRanges (tk : Int → Option (String × String))
    (entries : List (Int × Int)) :
    coveredCols (computeTermMergeRanges tk entries) =
      coveredCols (entries.foldl (segStep tk) ⟨[], none, -1, none, 0⟩).ranges ++
        pendingCols (entries.foldl (segStep tk) ⟨[], none, -1, none, 0⟩) := by
  simp only [computeTermMergeRanges, pendingCols]
  split_ifs with h
  · simp [coveredCols]
  · simp

/-- C5 corrected: the term segments do not tile the whole column axis; they
tile exactly the columns whose day resolves to some term.  For every built
index (days listed with consecutive columns from a first data column c0 >= 0)
and every term-resolution function, concatenating all merge ranges in order
yields precisely the data columns whose day resolves to a term, each exactly
once and in order; a transition between distinct terms or to and from
"no term" does close the current segment, but a run of no-term days is
emitted as no segment at all, so its columns are covered by nothing. -/
theorem c5_segments_tile_term_columns (tk : Int → Option (String × String))
    (days : List Int) (c0 : Int) (hc0 : 0 ≤ c0) :
    coveredCols (computeTermMergeRanges tk (indexEntries c0 days)) =
      termCols tk (indexEntries c0 days) := by
  have h := segLoop_covered tk days c0 ⟨[], none, -1, none, 0⟩ hc0 (Or.inl rfl)
  rw [coveredCols_computeTermMergeRanges, h.2]
  simp [coveredCols, pendingCols]

theorem c5_segments_tile_term_columns_witness :
    ((0 : Int) ≤ 2) ∧
      coveredCols (computeTermMergeRanges (getTermForDate TERMS_DATA)
          (indexEntries 2 (PartZero.generateTimelineDays 2024 9 28 2024 10 8))) =
        termCols (getTermForDate TERMS_DATA)
          (indexEntries 2 (PartZero.generateTimelineDays 2024 9 28 2024 10 8)) :=
  ⟨by decide, c5_segments_tile_term_columns (getTermForDate TERMS_DATA)
    (PartZero.generateTimelineDays 2024 9 28 2024 10 8) 2 (by decide)⟩
